import Mathlib

/-
  Verification of the TypeManager repository (a C-like type-layout simulator).

  Shallow embedding conventions:
  * Rust `usize` values are modelled as `Nat`, with every `usize` operation
    that can leave the 64-bit range (the `list.len() - 1` subtraction in
    `utils::permutations`, the product inside `utils::lcm`, and the
    accumulator additions of `Struct::unpacked_size`, `Struct::packed_size`
    and the per-permutation loop of `Struct::get_optimal_layout`) reduced
    explicitly modulo `2 ^ 64`, matching the release-mode wraparound
    semantics of the compiled program (a debug build would panic instead).
  * Fallible operations (a `%` or `/` by zero, an out-of-bounds index, a
    `HashMap::get(..).unwrap()` on a missing key - all of which panic in Rust)
    are modelled by `Option`/`Except` with `none`/`.error` for the panic.
  * The recursion of the layout engine through the registry is not structural,
    so every recursive layout computation takes an explicit fuel argument; fuel
    exhaustion also yields `none`.  Termination claims are expressed as
    fuel-stability: beyond a sufficient fuel the result no longer changes.
  * `HashMap<Name, Type>` is modelled as an association list in insertion
    order (keys are unique because insertion is guarded by a containment
    check, and nothing is ever removed or mutated).
-/

namespace utils

/-- Word size of a 64-bit `usize` (the literal is 2 ^ 64): wraparound
arithmetic is modulo this. -/
def USIZE_W : Nat := 18446744073709551616

/-- The value `usize::MAX` (2 ^ 64 - 1), the initial minimum in
`get_optimal_layout`. -/
def USIZE_MAX : Nat := 18446744073709551615

/-- The loop of `utils::gcd` (Euclidean algorithm).  `mx`/`mn` are the `max`/
`min` mutable locals; taking `max % min` with `min = 0` panics in Rust, which
is modelled by `none`.  The fuel only bounds the loop; since `mn` strictly
decreases, `mn + 1` steps always suffice. -/
def gcdLoop : Nat → Nat → Nat → Option Nat
  | 0, _, _ => none
  | fuel+1, mx, mn =>
    if mn = 0 then none
    else
      let res := mx % mn
      if res = 0 then some mn else gcdLoop fuel mn res

/-- Rust `utils::gcd(x, y)`: it first orders the pair as `max`/`min`, then runs
the Euclidean loop.  On a zero input the loop immediately takes `% 0`,
a division-by-zero panic, modelled by `none`. -/
def gcd (x y : Nat) : Option Nat :=
  gcdLoop (min x y + 1) (max x y) (min x y)

/-- Rust `utils::lcm(x, y) = x * y / gcd(x, y)`.  The product is `usize`
multiplication, hence reduced modulo `2 ^ 64`; the division only happens if
`gcd` returned (it panics on zero inputs). -/
def lcm (x y : Nat) : Option Nat :=
  (gcd x y).map (fun g => x * y % USIZE_W / g)

/-- The in-place swap performed by `utils::permutation_helper`:
`temp = list[i]; list[i] = list[l]; list[l] = temp`.  Out-of-bounds indexing
panics in Rust, modelled by `none`. -/
def swapAt (xs : List α) (i l : Nat) : Option (List α) :=
  match xs[i]?, xs[l]? with
  | some a, some b => some ((xs.set i b).set l a)
  | _, _ => none

/-- The `for i in l..r+1` loop of `utils::permutation_helper`.  `k` is the
number of remaining iterations (the loop bound `r + 1` is computed in `usize`,
see `permAuxF`), `i` the current loop index, `recAux` the recursive call for
position `l + 1`.  Returns the pushed snapshots together with the final state
of the mutated vector. -/
def permLoopF (recAux : Nat → Nat → List α → Option (List (List α) × List α))
    (l r : Nat) : Nat → Nat → List α → Option (List (List α) × List α)
  | 0, _, xs => some ([], xs)
  | k+1, i, xs => do
    let xs1 ← swapAt xs i l
    let (sub, xs2) ← recAux (l+1) r xs1
    let xs3 ← swapAt xs2 i l
    let (rest, xs4) ← permLoopF recAux l r k (i+1) xs3
    some (sub ++ rest, xs4)

/-- Rust `utils::permutation_helper(list, l, r, buff)`.  If `l == r` the
current list is pushed first; then the loop runs `i` from `l` up to (but
excluding) `(r + 1) % 2 ^ 64` - the `usize` value of the bound `r + 1`.
Structured as fuel-indexed recursion on `l`; `len + 2` fuel always suffices
for the calls the program makes. -/
def permAuxF : Nat → Nat → Nat → List α → Option (List (List α) × List α)
  | 0 => fun _ _ _ => none
  | fuel+1 => fun l r xs =>
    let e := (r + 1) % USIZE_W
    (permLoopF (permAuxF fuel) l r (e - l) l xs).map
      (fun p => ((if l = r then [xs] else []) ++ p.1, p.2))

/-- Rust `utils::permutations(list)`: calls the helper with `l = 0` and
`r = list.len() - 1`, a `usize` subtraction that wraps to `2 ^ 64 - 1` on an
empty list (so the helper loop bound `r + 1` wraps to `0` and nothing is ever
pushed or indexed). -/
def permutations (list : List α) : Option (List (List α)) :=
  (permAuxF (list.length + 2) 0 ((list.length + USIZE_W - 1) % USIZE_W) list).map (·.1)

end utils

namespace type_system

/-- A type name (`pub type Name = String`). -/
abbrev Name := String

/-- A list of types (`pub type TypeList = Vec<Name>`). -/
abbrev TypeList := List Name

/-- Atomic data type structure. -/
structure Atomic where
  representation : Nat
  alignment : Nat
deriving DecidableEq

/-- Struct type structure. -/
structure Struct where
  members : TypeList
deriving DecidableEq

/-- Union type structure. -/
structure Union where
  variants : TypeList
deriving DecidableEq

/-- Every possible data type (`pub enum Type`; `Type` is reserved in Lean). -/
inductive Ty where
  | atomic (a : Atomic)
  | struct (s : Struct)
  | union (u : Union)
deriving DecidableEq

/-- Every possible error (`pub enum TypeError`). -/
inductive TypeError where
  | TypeRedefinition
  | NoZeroAlign
  | NoZeroSizedType
  | EmptyCompoundType
  | TypeDoesNotExist (name : Name)
deriving DecidableEq

/-- `pub type TypeTable = HashMap<Name, Type>`, modelled as an association
list in insertion order; keys stay unique because `add` refuses existing
names and nothing is ever removed. -/
abbrev TypeTable := List (Name × Ty)

/-- `HashMap::contains_key`. -/
def containsKey (types : TypeTable) (name : Name) : Bool :=
  (types.lookup name).isSome

/-- The member names a type refers to (none for an atomic type). -/
def refNames : Ty → TypeList
  | .atomic _ => []
  | .struct s => s.members
  | .union u => u.variants

namespace TypeManager

/-- Rust `TypeManager::check_new_type`.  Note the source checks the member
references before the emptiness of the member list. -/
def check_new_type (types : TypeTable) (name : Name) (type_data : Ty) :
    Except TypeError Unit :=
  if containsKey types name then .error .TypeRedefinition
  else
    match type_data with
    | .atomic a =>
      if a.representation = 0 then .error .NoZeroSizedType
      else if a.alignment = 0 then .error .NoZeroAlign
      else .ok ()
    | .struct s =>
      match s.members.find? (fun sym => !containsKey types sym) with
      | some sym => .error (.TypeDoesNotExist sym)
      | none =>
        if s.members.isEmpty then .error .EmptyCompoundType else .ok ()
    | .union u =>
      match u.variants.find? (fun sym => !containsKey types sym) with
      | some sym => .error (.TypeDoesNotExist sym)
      | none =>
        if u.variants.isEmpty then .error .EmptyCompoundType else .ok ()

/-- Rust `TypeManager::add`: validate, then insert (append, since the name is
fresh). -/
def add (types : TypeTable) (typename : Name) (new_type : Ty) :
    Except TypeError TypeTable :=
  match check_new_type types typename new_type with
  | .error e => .error e
  | .ok _ => .ok (types ++ [(typename, new_type)])

/-- Rust `TypeManager::get`. -/
def get (types : TypeTable) (typename : Name) : Option Ty :=
  types.lookup typename

end TypeManager

/-- The registry states the program can actually build: start empty, keep the
result of every successful `add`. -/
inductive Reachable : TypeTable → Prop where
  | nil : Reachable []
  | step {types types' : TypeTable} {name : Name} {t : Ty} :
      Reachable types → TypeManager.add types name t = .ok types' →
      Reachable types'

/-- Every member/variant name stored anywhere in the registry is itself a key
of the registry. -/
def WellFormed (types : TypeTable) : Prop :=
  ∀ p ∈ types, ∀ r ∈ refNames p.2, containsKey types r = true

/-- The three packing modes.  The Rust source selects a mode by passing the
corresponding `Struct::*_size` / `Struct::*_align` function as the
`struct_packing_size` / `struct_packing_align` parameter of `Type::size`,
`Type::align`, `Union::size`, `Union::align`; the mode is constant throughout
one recursive computation. -/
inductive Mode where
  | unpacked
  | packed
  | optimized
deriving DecidableEq

/-- A size and an align evaluator for member types, as used one recursion
level down (the pair of function pointers a mode stands for). -/
structure SizeAlign where
  size : Ty → Option Nat
  align : Ty → Option Nat

/-- `manager.get(member).unwrap()` followed by `.size(..)`: `none` models the
unwrap panic on a missing name. -/
def member_size (types : TypeTable) (ev : SizeAlign) (m : Name) : Option Nat :=
  (TypeManager.get types m).bind ev.size

/-- `manager.get(member).unwrap()` followed by `.align(..)`. -/
def member_align (types : TypeTable) (ev : SizeAlign) (m : Name) : Option Nat :=
  (TypeManager.get types m).bind ev.align

/-- The member-placement loop shared by `Struct::unpacked_size` and the inner
loop of `Struct::get_optimal_layout`: advance `curr_pos` to the next multiple
of the member's alignment, then add its size.  `curr_pos % align` with
`align = 0` panics in Rust, hence the guard; the two `curr_pos +=` updates are
usize additions, so each wraps modulo 2^64 in a release build. -/
def layout_loop (sizeOf alignOf : Name → Option Nat) : Nat → TypeList → Option Nat
  | pos, [] => some pos
  | pos, m :: rest => do
    let size ← sizeOf m
    let align ← alignOf m
    if align = 0 then none
    else
      layout_loop sizeOf alignOf
        (((if pos % align = 0 then pos
           else (pos + (align - pos % align)) % utils.USIZE_W) + size) %
          utils.USIZE_W) rest

/-- The summation loop of `Struct::packed_size` (`sum` is the accumulator;
`sum +=` is a usize addition, wrapping modulo 2^64 in a release build). -/
def packed_size_loop (sizeOf : Name → Option Nat) : Nat → TypeList → Option Nat
  | sum, [] => some sum
  | sum, t :: rest => do
    let s ← sizeOf t
    packed_size_loop sizeOf ((sum + s) % utils.USIZE_W) rest

/-- The linear max-search loop of `Union::size` (`maxi` is the accumulator,
starting at 0). -/
def union_size_loop (sizeOf : Name → Option Nat) : Nat → TypeList → Option Nat
  | maxi, [] => some maxi
  | maxi, t :: rest => do
    let s ← sizeOf t
    union_size_loop sizeOf (max s maxi) rest

/-- The `for i in 0..(variants.len() - 1)` loop of `Union::align`.  Each
iteration computes the lcm of the aligns of the two adjacent variants and
OVERWRITES the accumulator with it, so the returned value is the lcm of the
last adjacent pair (`lcm` starts at 1 and stays 1 when there is no pair; on an
empty list the wrapped loop bound makes the first `variants[i]` index panic). -/
def union_align_loop (alignOf : Name → Option Nat) : TypeList → Option Nat
  | [] => none
  | [_] => some 1
  | v0 :: v1 :: rest => do
    let size1 ← alignOf v0
    let size2 ← alignOf v1
    let l ← utils.lcm size1 size2
    match rest with
    | [] => some l
    | _ :: _ => union_align_loop alignOf (v1 :: rest)

/-- The minimum-search loop of `Struct::get_optimal_layout`: `best` carries
the current `(layout, min)`, starting at `(vec![], usize::MAX)`; a permutation
replaces it only when its size is strictly smaller, so the first-enumerated
minimum wins. -/
def optimal_layout_loop (cost : TypeList → Option Nat) :
    List TypeList → TypeList × Nat → Option (TypeList × Nat)
  | [], best => some best
  | p :: rest, best => do
    let c ← cost p
    optimal_layout_loop cost rest (if c < best.2 then (p, c) else best)

/-- Rust `Struct::members_permutations`: permute the indices `0..n`, then map
each index back to a member name (`self.members[*i]`, whose out-of-bounds
panic is modelled by `none`). -/
def members_permutations (members : TypeList) : Option (List TypeList) := do
  let indices ← utils.permutations (List.range members.length)
  indices.mapM (fun l => l.mapM (fun i => members[i]?))

/-- Rust `Struct::get_optimal_layout`, with member sizes and aligns evaluated
by `ev` (one recursion level down, in optimized mode). -/
def get_optimal_layout (types : TypeTable) (ev : SizeAlign) (members : TypeList) :
    Option (TypeList × Nat) := do
  let permuts ← members_permutations members
  optimal_layout_loop (layout_loop (member_size types ev) (member_align types ev) 0)
    permuts ([], utils.USIZE_MAX)

/-- Rust `Struct::unpacked_size`. -/
def unpacked_size (types : TypeTable) (ev : SizeAlign) (members : TypeList) :
    Option Nat :=
  layout_loop (member_size types ev) (member_align types ev) 0 members

/-- Rust `Struct::packed_size`. -/
def packed_size (types : TypeTable) (ev : SizeAlign) (members : TypeList) :
    Option Nat :=
  packed_size_loop (member_size types ev) 0 members

/-- Rust `Struct::optimized_size`: the size component of the optimal layout. -/
def optimized_size (types : TypeTable) (ev : SizeAlign) (members : TypeList) :
    Option Nat :=
  (get_optimal_layout types ev members).map (·.2)

/-- Rust `Struct::unpacked_align` and `Struct::packed_align`: the align of
`self.members[0]` (an index panic on an empty member list). -/
def first_member_align (types : TypeTable) (ev : SizeAlign) :
    TypeList → Option Nat
  | [] => none
  | m :: _ => member_align types ev m

/-- Rust `Struct::optimized_align`: recompute the optimal layout and take the
align of `layout[0]` (an index panic if the search never selected a layout). -/
def optimized_align (types : TypeTable) (ev : SizeAlign) (members : TypeList) :
    Option Nat :=
  (get_optimal_layout types ev members).bind (fun p =>
    match p.1 with
    | [] => none
    | m :: _ => member_align types ev m)

/-- Rust `Union::size` with member sizes evaluated by `ev`. -/
def union_size (types : TypeTable) (ev : SizeAlign) (variants : TypeList) :
    Option Nat :=
  union_size_loop (member_size types ev) 0 variants

/-- Rust `Union::align` with member aligns evaluated by `ev`. -/
def union_align (types : TypeTable) (ev : SizeAlign) (variants : TypeList) :
    Option Nat :=
  union_align_loop (member_align types ev) variants

/-- Struct size dispatch: which `Struct::*_size` function the mode passes. -/
def struct_size (types : TypeTable) (ev : SizeAlign) :
    Mode → TypeList → Option Nat
  | .unpacked => unpacked_size types ev
  | .packed => packed_size types ev
  | .optimized => optimized_size types ev

/-- Struct align dispatch: which `Struct::*_align` function the mode passes. -/
def struct_align (types : TypeTable) (ev : SizeAlign) :
    Mode → TypeList → Option Nat
  | .unpacked => first_member_align types ev
  | .packed => first_member_align types ev
  | .optimized => optimized_align types ev

/-- One recursion level of `Type::size` / `Type::align`: atomics answer
directly, structs and unions evaluate their stored member names with the
evaluators `prev` of the level below. -/
def evalStep (types : TypeTable) (mode : Mode) (prev : SizeAlign) : SizeAlign where
  size := fun t =>
    match t with
    | .atomic a => some a.representation
    | .struct s => struct_size types prev mode s.members
    | .union u => union_size types prev u.variants
  align := fun t =>
    match t with
    | .atomic a => some a.alignment
    | .struct s => struct_align types prev mode s.members
    | .union u => union_align types prev u.variants

/-- Fuel 0: only atomics (which never recurse) can still be evaluated. -/
def evalBase : SizeAlign where
  size := fun t => match t with | .atomic a => some a.representation | _ => none
  align := fun t => match t with | .atomic a => some a.alignment | _ => none

/-- The evaluator pair with the given recursion fuel: each extra unit of fuel
peels one level of members.  This stratification is the shallow embedding of
the unguarded mutual recursion of `Type::size`, `Type::align` and the
`Struct::*`/`Union::*` computations. -/
def evalAt (types : TypeTable) (mode : Mode) : Nat → SizeAlign
  | 0 => evalBase
  | fuel+1 => evalStep types mode (evalAt types mode fuel)

/-- Rust `Type::size` at the given fuel. -/
def type_size (types : TypeTable) (mode : Mode) (fuel : Nat) (t : Ty) : Option Nat :=
  (evalAt types mode fuel).size t

/-- Rust `Type::align` at the given fuel. -/
def type_align (types : TypeTable) (mode : Mode) (fuel : Nat) (t : Ty) : Option Nat :=
  (evalAt types mode fuel).align t

end type_system

open type_system

/-- Specification of the output of one `permutation_helper` call at position
`l`: the vector is restored, the expected number of snapshots is pushed (0
when `l = r + 1`, else `(r + 1 - l)!`), every snapshot keeps the prefix below
`l` and permutes the whole vector, and snapshots are pairwise distinct when
the vector's elements are. -/
def AuxOut (l r : Nat) (xs : List α) (out : Option (List (List α) × List α)) : Prop :=
  ∃ buf, out = some (buf, xs) ∧
    buf.length = (if r + 1 ≤ l then 0 else (r + 1 - l).factorial) ∧
    (∀ y ∈ buf, y.length = xs.length ∧ y.take l = xs.take l ∧ y.Perm xs) ∧
    (xs.Nodup → buf.Nodup)

/-- Specification of the remaining `k` iterations of the swap loop of
`permutation_helper`, starting at loop index `i`: additionally, every snapshot
carries at position `l` one of the elements `xs[j]` for a loop index `j ≥ i`
(fixed by the iteration that produced it). -/
def LoopOut (l r k i : Nat) (xs : List α) (out : Option (List (List α) × List α)) : Prop :=
  ∃ buf, out = some (buf, xs) ∧
    buf.length = k * (if r + 1 ≤ l + 1 then 0 else (r - l).factorial) ∧
    (∀ y ∈ buf, y.length = xs.length ∧ y.take l = xs.take l ∧ y.Perm xs ∧
      ∃ j, i ≤ j ∧ j ≤ r ∧ y[l]? = xs[j]?) ∧
    (xs.Nodup → buf.Nodup)

/-- The registry of the worked example: int(4,4), char(1,4) and the two
structs s1 = [int, char], s2 = [char, int] (in registration order). -/
def mgrC4 : TypeTable :=
  [("int", .atomic ⟨4, 4⟩), ("char", .atomic ⟨1, 4⟩),
   ("s1", .struct ⟨["int", "char"]⟩), ("s2", .struct ⟨["char", "int"]⟩)]

/-- A registry holding a union of three atomics whose alignments are 4, 3, 3. -/
def mgrC1 : TypeTable :=
  [("t4", .atomic ⟨1, 4⟩), ("t3", .atomic ⟨1, 3⟩),
   ("u", .union ⟨["t4", "t3", "t3"]⟩)]

/-- A registry where optimizing the struct "bad" backfires: the nested struct
"m" optimizes from size 10 to size 3, which gives the union "u" an optimized
alignment of 8 (from the winning layout of "m") while its unpacked alignment
stays 1, so laying "bad" out with optimized member data costs more than the
declared unpacked layout. -/
def mgrC10 : TypeTable :=
  [("a1", .atomic ⟨1, 1⟩), ("b", .atomic ⟨2, 8⟩),
   ("m", .struct ⟨["a1", "b"]⟩), ("c9", .atomic ⟨9, 1⟩),
   ("u", .union ⟨["m", "c9"]⟩), ("bad", .struct ⟨["u", "u"]⟩)]

/-- A registry whose struct s = [ch2, int] has different first members in
declaration order (ch2, align 2) and in the optimal layout (int, align 4). -/
def mgrC5 : TypeTable :=
  [("int", .atomic ⟨4, 4⟩), ("ch2", .atomic ⟨1, 2⟩),
   ("s", .struct ⟨["ch2", "int"]⟩)]

/-- A registry whose struct s = [a, b] overflows the position accumulator:
a has representation 2^64 - 2 (a legal usize) and alignment 1, b has
representation 1 and alignment 4, so placing b after a wraps `curr_pos`
past 2^64 in the unpacked (and winning optimized) layout while the packed
sum 2^64 - 1 still fits. -/
def mgrWrap : TypeTable :=
  [("a", .atomic ⟨18446744073709551614, 1⟩), ("b", .atomic ⟨1, 4⟩),
   ("s", .struct ⟨["a", "b"]⟩)]

lemma reachable_mgrC4 : Reachable mgrC4 :=
  Reachable.step
    (Reachable.step
      (Reachable.step
        (Reachable.step Reachable.nil
          (show TypeManager.add [] "int" (.atomic ⟨4, 4⟩) = .ok _ from rfl))
        (show TypeManager.add _ "char" (.atomic ⟨1, 4⟩) = .ok _ from rfl))
      (show TypeManager.add _ "s1" (.struct ⟨["int", "char"]⟩) = .ok _ from rfl))
    (show TypeManager.add _ "s2" (.struct ⟨["char", "int"]⟩) = .ok mgrC4 from rfl)

lemma reachable_mgrC1 : Reachable mgrC1 :=
  Reachable.step
    (Reachable.step
      (Reachable.step Reachable.nil
        (show TypeManager.add [] "t4" (.atomic ⟨1, 4⟩) = .ok _ from rfl))
      (show TypeManager.add _ "t3" (.atomic ⟨1, 3⟩) = .ok _ from rfl))
    (show TypeManager.add _ "u" (.union ⟨["t4", "t3", "t3"]⟩) = .ok mgrC1 from rfl)

lemma reachable_mgrC10 : Reachable mgrC10 :=
  Reachable.step
    (Reachable.step
      (Reachable.step
        (Reachable.step
          (Reachable.step
            (Reachable.step Reachable.nil
              (show TypeManager.add [] "a1" (.atomic ⟨1, 1⟩) = .ok _ from rfl))
            (show TypeManager.add _ "b" (.atomic ⟨2, 8⟩) = .ok _ from rfl))
          (show TypeManager.add _ "m" (.struct ⟨["a1", "b"]⟩) = .ok _ from rfl))
        (show TypeManager.add _ "c9" (.atomic ⟨9, 1⟩) = .ok _ from rfl))
      (show TypeManager.add _ "u" (.union ⟨["m", "c9"]⟩) = .ok _ from rfl))
    (show TypeManager.add _ "bad" (.struct ⟨["u", "u"]⟩) = .ok mgrC10 from rfl)

lemma reachable_mgrWrap : Reachable mgrWrap :=
  Reachable.step
    (Reachable.step
      (Reachable.step Reachable.nil
        (show TypeManager.add [] "a" (.atomic ⟨18446744073709551614, 1⟩) =
          .ok _ from rfl))
      (show TypeManager.add _ "b" (.atomic ⟨1, 4⟩) = .ok _ from rfl))
    (show TypeManager.add _ "s" (.struct ⟨["a", "b"]⟩) = .ok mgrWrap from rfl)

/-- C1: the claim says a union's alignment is the least common multiple of
ALL of its variants' alignments.  The code's loop overwrites its accumulator
with the lcm of each adjacent pair instead of folding, so it returns the lcm
of the LAST adjacent pair only, contradicting the function's own doc comment:
for the validly registered union u with variant alignments 4, 3, 3 every
packing mode reports alignment 3, while the lcm of all alignments is 12. -/
theorem c1_union_align_drops_all_but_last_pair :
    Reachable mgrC1 ∧
    TypeManager.get mgrC1 "u" = some (.union ⟨["t4", "t3", "t3"]⟩) ∧
    type_align mgrC1 .unpacked 5 (.union ⟨["t4", "t3", "t3"]⟩) = some 3 ∧
    type_align mgrC1 .packed 5 (.union ⟨["t4", "t3", "t3"]⟩) = some 3 ∧
    type_align mgrC1 .optimized 5 (.union ⟨["t4", "t3", "t3"]⟩) = some 3 ∧
    Nat.lcm (Nat.lcm 4 3) 3 = 12 :=
  ⟨reachable_mgrC1, rfl, by decide, by decide, by decide, by decide⟩

/-- C2: the claim says gcd handles zero inputs without dividing by zero, with
gcd(0, y) = y and gcd(x, 0) = x.  In the code the Euclidean loop immediately
takes the remainder by the minimum of the two inputs, so any zero input is a
remainder-by-zero panic (modelled by none); a nonzero pair is computed fine. -/
theorem c2_gcd_panics_on_zero_inputs :
    utils.gcd 0 5 = none ∧ utils.gcd 5 0 = none ∧ utils.gcd 0 0 = none ∧
    utils.gcd 4 6 = some 2 ∧ Nat.gcd 0 5 = 5 ∧ Nat.gcd 5 0 = 5 := by
  refine ⟨by decide, by decide, by decide, by decide, by decide, by decide⟩

/-- C4: in the registry with Atomic int(4,4) and Atomic char(1,4), the struct
s1 = [int, char] measures 5/5/5 and the struct s2 = [char, int] measures
8/5/5 under the unpacked/packed/optimized modes, exactly as the claim says. -/
theorem c4_worked_example_sizes :
    Reachable mgrC4 ∧
    TypeManager.get mgrC4 "int" = some (.atomic ⟨4, 4⟩) ∧
    TypeManager.get mgrC4 "char" = some (.atomic ⟨1, 4⟩) ∧
    type_size mgrC4 .unpacked 5 (.struct ⟨["int", "char"]⟩) = some 5 ∧
    type_size mgrC4 .packed 5 (.struct ⟨["int", "char"]⟩) = some 5 ∧
    type_size mgrC4 .optimized 5 (.struct ⟨["int", "char"]⟩) = some 5 ∧
    type_size mgrC4 .unpacked 5 (.struct ⟨["char", "int"]⟩) = some 8 ∧
    type_size mgrC4 .packed 5 (.struct ⟨["char", "int"]⟩) = some 5 ∧
    type_size mgrC4 .optimized 5 (.struct ⟨["char", "int"]⟩) = some 5 :=
  ⟨reachable_mgrC4, rfl, rfl, by decide, by decide, by decide, by decide,
    by decide, by decide⟩

/-- C9: a union with exactly one variant has alignment 1 in every packing
mode and in every registry, whatever the variant's own alignment is, because
the pairwise lcm loop has no adjacent pair and the accumulator keeps its
initial value 1. -/
theorem c9_single_variant_union_align_one
    (types : TypeTable) (mode : Mode) (t : Name) (fuel : Nat) :
    type_align types mode (fuel + 1) (.union ⟨[t]⟩) = some 1 := rfl

/-- C5: a struct's unpacked (and packed) alignment is the alignment of its
first declared member, and its optimized alignment is the alignment of the
first member of the layout selected by the permutation search. -/
theorem c5_struct_align_first_of_order (types : TypeTable) (fuel : Nat)
    (m0 l0 : Name) (rest layoutRest members : TypeList) (sz : Nat)
    (hmembers : members = m0 :: rest)
    (hopt : get_optimal_layout types (evalAt types .optimized fuel) members =
      some (l0 :: layoutRest, sz)) :
    type_align types .unpacked (fuel + 1) (.struct ⟨members⟩) =
      member_align types (evalAt types .unpacked fuel) m0 ∧
    type_align types .packed (fuel + 1) (.struct ⟨members⟩) =
      member_align types (evalAt types .packed fuel) m0 ∧
    type_align types .optimized (fuel + 1) (.struct ⟨members⟩) =
      member_align types (evalAt types .optimized fuel) l0 := by
  subst hmembers
  refine ⟨rfl, rfl, ?_⟩
  simp [type_align, evalAt, evalStep, struct_align, optimized_align, hopt]

/-- C5 witness: in mgrC5 the struct [ch2, int] has unpacked alignment 2 (from
ch2, its first declared member) but optimized alignment 4 (from int, the head
of the winning layout [int, ch2]). -/
theorem c5_witness :
    type_align mgrC5 .unpacked 2 (.struct ⟨["ch2", "int"]⟩) = some 2 ∧
    type_align mgrC5 .packed 2 (.struct ⟨["ch2", "int"]⟩) = some 2 ∧
    type_align mgrC5 .optimized 2 (.struct ⟨["ch2", "int"]⟩) = some 4 := by
  have h := c5_struct_align_first_of_order mgrC5 1 "ch2" "int" ["int"] ["ch2"]
    ["ch2", "int"] 5 rfl (by decide)
  exact ⟨h.1.trans (by decide), h.2.1.trans (by decide), h.2.2.trans (by decide)⟩

lemma find_first_absent (types : TypeTable) (pre : TypeList) (m : Name)
    (post : TypeList) (hpre : ∀ x ∈ pre, containsKey types x = true)
    (hm : containsKey types m = false) :
    (pre ++ m :: post).find? (fun sym => !containsKey types sym) = some m := by
  induction pre with
  | nil => simp [List.find?, hm]
  | cons a pre ih =>
    have ha : containsKey types a = true := hpre a (by simp)
    simp only [List.cons_append, List.find?, ha]
    exact ih (fun x hx => hpre x (by simp [hx]))

lemma find_none_of_all_present (types : TypeTable) (ms : TypeList)
    (hall : ∀ x ∈ ms, containsKey types x = true) :
    ms.find? (fun sym => !containsKey types sym) = none := by
  apply List.find?_eq_none.mpr
  intro x hx
  simp [hall x hx]

/-- C8: registering a Struct or Union under a fresh name results in
EmptyCompoundType when the member list is empty, otherwise in
TypeDoesNotExist naming the first missing reference in declaration order,
and otherwise succeeds, appending the entry. -/
theorem c8_register_validation (types : TypeTable) (name : Name)
    (h : containsKey types name = false) :
    (TypeManager.add types name (.struct ⟨[]⟩) = .error .EmptyCompoundType) ∧
    (TypeManager.add types name (.union ⟨[]⟩) = .error .EmptyCompoundType) ∧
    (∀ pre m post, (∀ x ∈ pre, containsKey types x = true) →
      containsKey types m = false →
      TypeManager.add types name (.struct ⟨pre ++ m :: post⟩) =
        .error (.TypeDoesNotExist m)) ∧
    (∀ pre m post, (∀ x ∈ pre, containsKey types x = true) →
      containsKey types m = false →
      TypeManager.add types name (.union ⟨pre ++ m :: post⟩) =
        .error (.TypeDoesNotExist m)) ∧
    (∀ ms, ms ≠ [] → (∀ x ∈ ms, containsKey types x = true) →
      TypeManager.add types name (.struct ⟨ms⟩) =
        .ok (types ++ [(name, .struct ⟨ms⟩)])) ∧
    (∀ vs, vs ≠ [] → (∀ x ∈ vs, containsKey types x = true) →
      TypeManager.add types name (.union ⟨vs⟩) =
        .ok (types ++ [(name, .union ⟨vs⟩)])) := by
  refine ⟨?_, ?_, ?_, ?_, ?_, ?_⟩
  · simp [TypeManager.add, TypeManager.check_new_type, h]
  · simp [TypeManager.add, TypeManager.check_new_type, h]
  · intro pre m post hpre hm
    simp [TypeManager.add, TypeManager.check_new_type, h,
      find_first_absent types pre m post hpre hm]
  · intro pre m post hpre hm
    simp [TypeManager.add, TypeManager.check_new_type, h,
      find_first_absent types pre m post hpre hm]
  · intro ms hne hall
    simp [TypeManager.add, TypeManager.check_new_type, h,
      find_none_of_all_present types ms hall, hne]
  · intro vs hne hall
    simp [TypeManager.add, TypeManager.check_new_type, h,
      find_none_of_all_present types vs hall, hne]

/-- C8 witness: the three outcomes on a small concrete registry. -/
theorem c8_witness :
    TypeManager.add [("a1", Ty.atomic ⟨1, 1⟩)] "s" (.struct ⟨[]⟩) =
      .error .EmptyCompoundType ∧
    TypeManager.add [("a1", Ty.atomic ⟨1, 1⟩)] "s" (.struct ⟨["a1", "zz"]⟩) =
      .error (.TypeDoesNotExist "zz") ∧
    TypeManager.add [("a1", Ty.atomic ⟨1, 1⟩)] "s" (.struct ⟨["a1"]⟩) =
      .ok [("a1", Ty.atomic ⟨1, 1⟩), ("s", .struct ⟨["a1"]⟩)] := by
  have h := c8_register_validation [("a1", Ty.atomic ⟨1, 1⟩)] "s" (by decide)
  refine ⟨h.1, ?_, ?_⟩
  · exact h.2.2.1 ["a1"] "zz" [] (by decide) (by decide)
  · exact h.2.2.2.2.1 ["a1"] (by decide) (by decide)

lemma lookup_append_left {k : Name} {l1 l2 : TypeTable}
    (h : containsKey l1 k = true) :
    List.lookup k (l1 ++ l2) = List.lookup k l1 := by
  induction l1 with
  | nil => simp [containsKey] at h
  | cons a l1 ih =>
    by_cases hk : k == a.1
    · simp [List.lookup, hk]
    · simp only [containsKey, List.lookup, hk, List.cons_append,
        Bool.false_eq_true, if_false] at h ⊢
      exact ih h

lemma containsKey_append_left {k : Name} {l1 l2 : TypeTable}
    (h : containsKey l1 k = true) : containsKey (l1 ++ l2) k = true := by
  unfold containsKey at h ⊢
  rw [lookup_append_left h]
  exact h

lemma add_ok_elim {types types' : TypeTable} {name : Name} {t : Ty}
    (h : TypeManager.add types name t = .ok types') :
    TypeManager.check_new_type types name t = .ok () ∧
      types' = types ++ [(name, t)] := by
  unfold TypeManager.add at h
  rcases hc : TypeManager.check_new_type types name t with e | u
  · simp only [hc] at h
    exact absurd h (by simp)
  · cases u
    simp only [hc, Except.ok.injEq] at h
    exact ⟨rfl, h.symm⟩

lemma check_ok_elim {types : TypeTable} {name : Name} {t : Ty}
    (h : TypeManager.check_new_type types name t = .ok ()) :
    containsKey types name = false ∧
      ∀ r ∈ refNames t, containsKey types r = true := by
  unfold TypeManager.check_new_type at h
  by_cases hc : containsKey types name = true
  · simp [hc] at h
  · have hc' : containsKey types name = false := by
      simpa using hc
    refine ⟨hc', ?_⟩
    cases t with
    | atomic a => intro r hr; simp [refNames] at hr
    | struct s =>
      cases hfind : s.members.find? (fun sym => !containsKey types sym) with
      | some sym => simp [hc', hfind] at h
      | none =>
        intro r hr
        have := List.find?_eq_none.mp hfind r hr
        simpa using this
    | union u =>
      cases hfind : u.variants.find? (fun sym => !containsKey types sym) with
      | some sym => simp [hc', hfind] at h
      | none =>
        intro r hr
        have := List.find?_eq_none.mp hfind r hr
        simpa using this

lemma wellformed_of_reachable {types : TypeTable}
    (h : Reachable types) : WellFormed types := by
  induction h with
  | nil => intro p hp; simp at hp
  | step hr hadd ih =>
    obtain ⟨hchk, rfl⟩ := add_ok_elim hadd
    obtain ⟨hfresh, hrefs⟩ := check_ok_elim hchk
    intro p hp r hr
    rcases List.mem_append.1 hp with hmem | hmem
    · exact containsKey_append_left (ih p hmem r hr)
    · have hp' := List.mem_singleton.1 hmem
      subst hp'
      exact containsKey_append_left (hrefs r hr)

/-- C6: every reachable registry state is reference-closed: each member name
of a stored Struct and each variant name of a stored Union is itself a key
present in the registry, and every successful add preserves this. -/
theorem c6_registry_references_closed {types : TypeTable}
    (h : Reachable types) : WellFormed types :=
  wellformed_of_reachable h

/-- C6 witness: the six-entry registry mgrC10 is reachable, hence closed. -/
theorem c6_witness : Reachable mgrC10 ∧ WellFormed mgrC10 :=
  ⟨reachable_mgrC10, c6_registry_references_closed reachable_mgrC10⟩

/-- C9 witness: a concrete single-variant union in the empty registry. -/
theorem c9_witness : type_align [] .unpacked 1 (.union ⟨["x"]⟩) = some 1 :=
  c9_single_variant_union_align_one [] .unpacked "x" 0

namespace utils

lemma swapAt_some {xs : List α} {i l : Nat} (hi : i < xs.length)
    (hl : l < xs.length) :
    swapAt xs i l = some ((xs.set i xs[l]).set l xs[i]) := by
  simp [swapAt, List.getElem?_eq_getElem, hi, hl]

lemma set_self_eq {l : List α} {i : Nat} (h : i < l.length) :
    l.set i l[i] = l := by
  apply List.ext_getElem?
  intro n
  by_cases hn : n = i
  · subst hn
    simp [List.getElem?_set_self', List.getElem?_eq_getElem, h]
  · rw [List.getElem?_set_ne (fun hh => hn hh.symm)]

lemma take_set_of_le (a : α) {n m : Nat} (l : List α) (h : m ≤ n) :
    (l.set n a).take m = l.take m := by
  apply List.ext_getElem?
  intro k
  simp only [List.getElem?_take]
  by_cases hk : k < m
  · simp only [hk, if_true]
    rw [List.getElem?_set_ne (by omega)]
  · simp [hk]

lemma cons_set_perm : ∀ (t : List α) (m : Nat) (a : α), (h : m < t.length) →
    (t[m] :: t.set m a).Perm (a :: t)
  | b :: t2, 0, a, _ => by
    simpa using List.Perm.swap a b t2
  | b :: t2, k+1, a, h => by
    have hk : k < t2.length := by simpa using h
    have step1 : (t2[k] :: b :: t2.set k a).Perm (b :: t2[k] :: t2.set k a) :=
      List.Perm.swap b t2[k] _
    have step2 : (b :: t2[k] :: t2.set k a).Perm (b :: a :: t2) :=
      (cons_set_perm t2 k a hk).cons b
    have step3 : (b :: a :: t2).Perm (a :: b :: t2) := List.Perm.swap a b t2
    simpa using (step1.trans step2).trans step3

lemma swap_perm : ∀ (xs : List α) (i l : Nat) (hi : i < xs.length)
    (hl : l < xs.length), ((xs.set i xs[l]).set l xs[i]).Perm xs
  | a :: t, 0, 0, _, _ => by simp
  | a :: t, 0, m+1, hi, hl => by
    have hm : m < t.length := by simpa using hl
    simpa using cons_set_perm t m a hm
  | a :: t, m+1, 0, hi, hl => by
    have hm : m < t.length := by simpa using hi
    simpa using cons_set_perm t m a hm
  | a :: t, m+1, k+1, hi, hl => by
    have hm : m < t.length := by simpa using hi
    have hk : k < t.length := by simpa using hl
    simpa using (swap_perm t m k hm hk).cons a

lemma double_set_at_l {xs : List α} {i l : Nat} {a b : α}
    (hl : l < xs.length) :
    ((xs.set i a).set l b)[l]? = some b := by
  rw [List.getElem?_set_self']
  simp [List.getElem?_eq_getElem, hl]

lemma double_set_at_i {xs : List α} {i l : Nat} {a b : α}
    (hi : i < xs.length) (hil : i ≠ l) :
    ((xs.set i a).set l b)[i]? = some a := by
  rw [List.getElem?_set_ne (fun hh => hil hh.symm), List.getElem?_set_self']
  simp [List.getElem?_eq_getElem, hi]

lemma double_set_other {xs : List α} {i l n : Nat} {a b : α}
    (hni : n ≠ i) (hnl : n ≠ l) :
    ((xs.set i a).set l b)[n]? = xs[n]? := by
  rw [List.getElem?_set_ne (fun hh => hnl hh.symm),
    List.getElem?_set_ne (fun hh => hni hh.symm)]

lemma swapAt_swapAt {xs : List α} {i l : Nat} (hi : i < xs.length)
    (hl : l < xs.length) :
    swapAt ((xs.set i xs[l]).set l xs[i]) i l = some xs := by
  by_cases hil : i = l
  · subst hil
    rw [List.set_set, set_self_eq hi, swapAt_some hi hi, List.set_set,
      set_self_eq hi]
  · have hzi : ((xs.set i xs[l]).set l xs[i])[i]? = some xs[l] :=
      double_set_at_i hi hil
    have hzl : ((xs.set i xs[l]).set l xs[i])[l]? = some xs[i] :=
      double_set_at_l hl
    unfold swapAt
    rw [hzi, hzl]
    show some ((((xs.set i xs[l]).set l xs[i]).set i xs[i]).set l xs[l]) = some xs
    congr 1
    apply List.ext_getElem?
    intro n
    by_cases hnl : n = l
    · subst hnl
      rw [double_set_at_l (by simpa using hl)]
      simp [List.getElem?_eq_getElem, hl]
    · by_cases hni : n = i
      · subst hni
        rw [double_set_at_i (by simpa using hi) hnl]
        simp [List.getElem?_eq_getElem, hi]
      · rw [double_set_other hni hnl, double_set_other hni hnl]

lemma swap_length {xs : List α} (i l : Nat) (a b : α) :
    ((xs.set i a).set l b).length = xs.length := by
  simp

lemma permLoop_spec {α : Type} (fuel : Nat)
    (Paux : ∀ (l r : Nat) (xs : List α), l ≤ r + 1 → r < xs.length →
      r + 1 < USIZE_W → r + 2 - l ≤ fuel →
      AuxOut l r xs (permAuxF fuel l r xs)) :
    ∀ (k l r i : Nat) (xs : List α), l ≤ i → i + k = r + 1 →
      r < xs.length → r + 1 < USIZE_W → r + 1 - l ≤ fuel →
      LoopOut l r k i xs (permLoopF (permAuxF fuel) l r k i xs) := by
  intro k
  induction k with
  | zero =>
    intro l r i xs hli hik hr hW hfuel
    exact ⟨[], rfl, by simp, by simp, fun _ => List.nodup_nil⟩
  | succ k ih =>
    intro l r i xs hli hik hr hW hfuel
    have hi : i < xs.length := by omega
    have hl : l < xs.length := by omega
    have hir : i ≤ r := by omega
    -- the swapped vector of this iteration
    set zs := (xs.set i xs[l]).set l xs[i] with hzs
    have hzlen : zs.length = xs.length := by simp [hzs]
    obtain ⟨sub, hsubeq, hsublen, hsubmem, hsubnd⟩ :=
      Paux (l+1) r zs (by omega) (by omega) hW (by omega)
    obtain ⟨rest, hresteq, hrestlen, hrestmem, hrestnd⟩ :=
      ih l r (i+1) xs (by omega) (by omega) hr hW hfuel
    have hstep : permLoopF (permAuxF fuel) l r (k+1) i xs =
        some (sub ++ rest, xs) := by
      show (swapAt xs i l).bind _ = _
      rw [swapAt_some hi hl, Option.some_bind, ← hzs, hsubeq]
      show (swapAt zs i l).bind _ = _
      rw [hzs, swapAt_swapAt hi hl, Option.some_bind, hresteq]
      rfl
    have hzperm : zs.Perm xs := swap_perm xs i l hi hl
    have hztake : zs.take l = xs.take l := by
      rw [hzs, take_set_of_le _ _ (Nat.le_refl l), take_set_of_le _ _ hli]
    -- facts about a snapshot coming from this iteration
    have hsubfacts : ∀ y ∈ sub, y.length = xs.length ∧ y.take l = xs.take l ∧
        y.Perm xs ∧ y[l]? = xs[i]? := by
      intro y hy
      obtain ⟨hylen, hytake, hyperm⟩ := hsubmem y hy
      have hylen' : y.length = xs.length := by rw [hylen, hzlen]
      have hytake' : y.take l = xs.take l := by
        have h1 : y.take l = (y.take (l+1)).take l := by
          rw [List.take_take]
          simp [Nat.min_eq_left (Nat.le_succ l)]
        have h2 : (zs.take (l+1)).take l = zs.take l := by
          rw [List.take_take]
          simp [Nat.min_eq_left (Nat.le_succ l)]
        rw [h1, hytake, h2, hztake]
      have hyget : y[l]? = xs[i]? := by
        have h1 : y[l]? = (y.take (l+1))[l]? := by
          rw [List.getElem?_take]
          simp
        have h2 : (zs.take (l+1))[l]? = zs[l]? := by
          rw [List.getElem?_take]
          simp
        rw [h1, hytake, h2, hzs, double_set_at_l hl,
          List.getElem?_eq_getElem hi]
      exact ⟨hylen', hytake', hyperm.trans hzperm, hyget⟩
    refine ⟨sub ++ rest, hstep, ?_, ?_, ?_⟩
    · rw [List.length_append, hsublen, hrestlen]
      have harith : r + 1 - (l + 1) = r - l := by omega
      rw [harith]
      by_cases hcase : r + 1 ≤ l + 1
      · simp [hcase]
      · simp only [hcase, if_false]
        have : (k + 1) * (r - l).factorial =
            (r - l).factorial + k * (r - l).factorial := by ring
        omega
    · intro y hy
      rcases List.mem_append.1 hy with hy | hy
      · obtain ⟨h1, h2, h3, h4⟩ := hsubfacts y hy
        exact ⟨h1, h2, h3, i, Nat.le_refl i, hir, h4⟩
      · obtain ⟨h1, h2, h3, j, hj1, hj2, hj3⟩ := hrestmem y hy
        exact ⟨h1, h2, h3, j, by omega, hj2, hj3⟩
    · intro hnd
      rw [List.nodup_append]
      refine ⟨hsubnd (hzperm.nodup_iff.mpr hnd), hrestnd hnd, ?_⟩
      intro y hysub hyrest
      obtain ⟨-, -, -, hyget⟩ := hsubfacts y hysub
      obtain ⟨-, -, -, j, hj1, hj2, hj3⟩ := hrestmem y hyrest
      have hj : j < xs.length := by omega
      have : xs[i]? = xs[j]? := by rw [← hyget, hj3]
      rw [List.getElem?_eq_getElem hi, List.getElem?_eq_getElem hj] at this
      have heq : xs[i] = xs[j] := by simpa using this
      have : i = j := (List.Nodup.getElem_inj_iff hnd).mp heq
      omega

lemma permAux_spec {α : Type} : ∀ (fuel : Nat) (l r : Nat) (xs : List α),
    l ≤ r + 1 → r < xs.length → r + 1 < USIZE_W → r + 2 - l ≤ fuel →
    AuxOut l r xs (permAuxF fuel l r xs) := by
  intro fuel
  induction fuel with
  | zero =>
    intro l r xs hlr hr hW hfuel
    omega
  | succ fuel ih =>
    intro l r xs hlr hr hW hfuel
    have he : (r + 1) % USIZE_W = r + 1 := Nat.mod_eq_of_lt hW
    have hunfold : permAuxF (fuel+1) l r xs =
        (permLoopF (permAuxF fuel) l r (r + 1 - l) l xs).map
          (fun p => ((if l = r then [xs] else []) ++ p.1, p.2)) := by
      show (permLoopF (permAuxF fuel) l r ((r + 1) % USIZE_W - l) l xs).map _ = _
      rw [he]
    by_cases hcase : l = r + 1
    · subst hcase
      rw [hunfold]
      have : r + 1 - (r + 1) = 0 := by omega
      rw [this]
      have hlr' : ¬ (r + 1 = r) := by omega
      refine ⟨[], ?_, by simp, by simp, fun _ => List.nodup_nil⟩
      show some ((if r + 1 = r then [xs] else []) ++ [], xs) = some ([], xs)
      simp [hlr']
    · have hlr2 : l ≤ r := by omega
      obtain ⟨lbuf, heq, hlen, hmem, hnd⟩ :=
        permLoop_spec fuel ih (r + 1 - l) l r l xs (Nat.le_refl l)
          (by omega) hr hW (by omega)
      rw [hunfold, heq]
      refine ⟨(if l = r then [xs] else []) ++ lbuf, rfl, ?_, ?_, ?_⟩
      · rw [List.length_append, hlen]
        by_cases hlreq : l = r
        · subst hlreq
          simp
        · have h1 : ¬ (r + 1 ≤ l) := by omega
          have h2 : ¬ (r + 1 ≤ l + 1) := by omega
          simp only [hlreq, if_false, h1, h2, List.length_nil]
          have h3 : r + 1 - l = (r - l) + 1 := by omega
          rw [h3, Nat.factorial_succ]
          omega
      · intro y hy
        rcases List.mem_append.1 hy with hy | hy
        · have hyx : y = xs := by
            by_cases hlreq : l = r
            · simpa [hlreq] using hy
            · simp [hlreq] at hy
          subst hyx
          exact ⟨rfl, rfl, List.Perm.refl y⟩
        · obtain ⟨h1, h2, h3, -⟩ := hmem y hy
          exact ⟨h1, h2, h3⟩
      · intro hndxs
        rw [List.nodup_append]
        by_cases hlreq : l = r
        · subst hlreq
          have hlbuf : lbuf = [] := by
            rw [← List.length_eq_zero, hlen]
            simp
          subst hlbuf
          simp
        · simp only [hlreq, if_false]
          refine ⟨List.nodup_nil, hnd hndxs, by simp⟩

lemma permutations_spec {α : Type} (xs : List α)
    (hW : xs.length < USIZE_W) :
    ∃ ps, permutations xs = some ps ∧
      (xs = [] → ps = []) ∧
      (xs ≠ [] → ps.length = xs.length.factorial) ∧
      (∀ p ∈ ps, p.Perm xs) ∧
      (∀ x : α, xs = [x] → ps = [[x]]) ∧
      (xs.Nodup → ps.Nodup) := by
  by_cases hnil : xs = []
  · subst hnil
    have h0 : (0 + USIZE_W - 1) % USIZE_W = USIZE_W - 1 := by
      unfold USIZE_W
      omega
    have he : (USIZE_W - 1 + 1) % USIZE_W = 0 := by
      unfold USIZE_W
      omega
    have hne : ¬ ((0 : Nat) = USIZE_W - 1) := by
      unfold USIZE_W
      omega
    have heq : permutations ([] : List α) = some [] := by
      show (permAuxF (0 + 2) 0 ((0 + USIZE_W - 1) % USIZE_W) ([] : List α)).map
        (·.1) = some []
      rw [h0]
      show (permAuxF 2 0 (USIZE_W - 1) ([] : List α)).map (·.1) = some []
      rw [show permAuxF 2 0 (USIZE_W - 1) ([] : List α) =
        (permLoopF (permAuxF 1) 0 (USIZE_W - 1)
          ((USIZE_W - 1 + 1) % USIZE_W - 0) 0 []).map
          (fun p => ((if 0 = USIZE_W - 1 then [([] : List α)] else []) ++ p.1,
            p.2)) from rfl]
      rw [he, if_neg hne]
      rfl
    refine ⟨[], heq, fun _ => rfl, fun h => absurd rfl h, by simp, ?_, by simp⟩
    intro x hx
    cases hx
  · have hn : 1 ≤ xs.length := by
      cases xs with
      | nil => exact absurd rfl hnil
      | cons a t => simp
    have hWlit : xs.length < 2 ^ 64 := hW
    have hmod : (xs.length + USIZE_W - 1) % USIZE_W = xs.length - 1 := by
      unfold USIZE_W at hWlit ⊢
      omega
    have hrW : (xs.length - 1) + 1 < USIZE_W := by
      unfold USIZE_W at hWlit ⊢
      omega
    obtain ⟨buf, heq, hlen, hmem, hnd⟩ :=
      permAux_spec (xs.length + 2) 0 (xs.length - 1) xs (by omega)
        (by omega) hrW (by omega)
    have heq2 : permutations xs = some buf := by
      unfold permutations
      rw [hmod, heq]
      rfl
    have hlen2 : buf.length = xs.length.factorial := by
      rw [hlen]
      have h1 : ¬ (xs.length - 1 + 1 ≤ 0) := by omega
      have h2 : xs.length - 1 + 1 - 0 = xs.length := by omega
      simp only [h1, if_false, h2]
    refine ⟨buf, heq2, fun h => absurd h hnil, fun _ => hlen2, ?_, ?_, ?_⟩
    · intro p hp
      exact (hmem p hp).2.2
    · intro x hx
      subst hx
      have : buf.length = 1 := by simpa using hlen2
      obtain ⟨p, hp⟩ := List.length_eq_one.mp this
      subst hp
      have : p.Perm [x] := (hmem p (by simp)).2.2
      rw [List.perm_singleton.mp this]
    · intro h
      exact hnd h

end utils

/-- C3 counterexample: on the input [0, 0] (length 2) the function returns
two EQUAL orderings, so the produced orderings are not pairwise distinct as
the claim states for every input sequence. -/
theorem c3_counterexample_duplicate_input :
    utils.permutations [0, 0] = some [[0, 0], [0, 0]] ∧
    ¬ ([[0, 0], [0, 0]] : List (List Nat)).Nodup :=
  ⟨by decide, by decide⟩

/-- C3 (amended): for every input whose length n is representable in usize,
permutations succeeds and returns: the empty list of orderings for n = 0 (not
a single empty ordering); exactly n! orderings for n nonempty, each of them a
full permutation of the input, and pairwise distinct whenever the input has
no duplicate elements (with duplicated elements orderings repeat); and for
n = 1 exactly one ordering, equal to the input. -/
theorem c3_permutations_count_perm_distinct {α : Type} (xs : List α)
    (hW : xs.length < utils.USIZE_W) :
    ∃ ps, utils.permutations xs = some ps ∧
      (xs = [] → ps = []) ∧
      (xs ≠ [] → ps.length = xs.length.factorial) ∧
      (∀ p ∈ ps, p.Perm xs) ∧
      (∀ x : α, xs = [x] → ps = [[x]]) ∧
      (xs.Nodup → ps.Nodup) :=
  utils.permutations_spec xs hW

/-- C3 witness: the amended statement instantiated at the input [1, 2, 3]. -/
theorem c3_witness :
    ([1, 2, 3] : List Nat).length < utils.USIZE_W ∧
    ∃ ps, utils.permutations [1, 2, 3] = some ps ∧
      (([1, 2, 3] : List Nat) = [] → ps = []) ∧
      (([1, 2, 3] : List Nat) ≠ [] → ps.length = ([1, 2, 3] : List Nat).length.factorial) ∧
      (∀ p ∈ ps, p.Perm [1, 2, 3]) ∧
      (∀ x : Nat, [1, 2, 3] = [x] → ps = [[x]]) ∧
      (([1, 2, 3] : List Nat).Nodup → ps.Nodup) :=
  ⟨by decide, c3_permutations_count_perm_distinct [1, 2, 3] (by decide)⟩

lemma lookup_mem {types : TypeTable} {k : Name} {v : Ty}
    (h : List.lookup k types = some v) : (k, v) ∈ types := by
  induction types with
  | nil => cases h
  | cons a rest ih =>
    by_cases hk : k == a.1
    · have hk' : k = a.1 := by simpa using hk
      simp only [List.lookup, hk, if_pos] at h
      have hv : a.2 = v := by simpa using h
      have : (k, v) = a := by rw [hk', ← hv]
      rw [this]
      exact List.mem_cons_self a rest
    · simp only [List.lookup, hk, Bool.false_eq_true, if_false] at h
      exact List.mem_cons_of_mem a (ih h)

lemma mapM_some_mem {β γ : Type} (f : β → Option γ) :
    ∀ (l : List β) (ys : List γ), l.mapM f = some ys →
      ∀ y ∈ ys, ∃ x ∈ l, f x = some y := by
  intro l
  induction l with
  | nil =>
    intro ys h y hy
    rw [← List.mapM'_eq_mapM] at h
    cases h
    cases hy
  | cons a rest ih =>
    intro ys h y hy
    rw [← List.mapM'_eq_mapM] at h
    simp only [List.mapM'] at h
    cases hfa : f a with
    | none => rw [hfa] at h; cases h
    | some b =>
      rw [hfa] at h
      cases hrest : List.mapM' f rest with
      | none => rw [hrest] at h; cases h
      | some bs =>
        rw [hrest] at h
        have hys : ys = b :: bs := by
          simpa using h.symm
        subst hys
        rcases List.mem_cons.1 hy with hyb | hybs
        · exact ⟨a, by simp, by rw [hfa, hyb]⟩
        · rw [List.mapM'_eq_mapM] at hrest
          obtain ⟨x, hx, hfx⟩ := ih bs hrest y hybs
          exact ⟨x, by simp [hx], hfx⟩

lemma members_permutations_mem {members : TypeList} {perms : List TypeList}
    (h : members_permutations members = some perms) :
    ∀ p ∈ perms, ∀ m ∈ p, m ∈ members := by
  intro p hp m hm
  unfold members_permutations at h
  cases hidx : utils.permutations (List.range members.length) with
  | none => rw [hidx] at h; cases h
  | some idx =>
    rw [hidx] at h
    have h2 : idx.mapM (fun l => l.mapM (fun i => members[i]?)) = some perms := h
    obtain ⟨il, -, hil⟩ := mapM_some_mem _ idx perms h2 p hp
    obtain ⟨i, -, hii⟩ := mapM_some_mem _ il p hil m hm
    exact List.getElem?_mem hii

lemma layout_loop_congr {s1 a1 s2 a2 : Name → Option Nat} :
    ∀ (ms : TypeList) (pos : Nat), (∀ m ∈ ms, s1 m = s2 m ∧ a1 m = a2 m) →
      layout_loop s1 a1 pos ms = layout_loop s2 a2 pos ms := by
  intro ms
  induction ms with
  | nil => intro pos _; rfl
  | cons m rest ih =>
    intro pos H
    obtain ⟨hs, ha⟩ := H m (by simp)
    show (s1 m).bind _ = (s2 m).bind _
    rw [hs]
    cases s2 m with
    | none => rfl
    | some sz =>
      show (a1 m).bind _ = (a2 m).bind _
      rw [ha]
      cases a2 m with
      | none => rfl
      | some al =>
        show (if al = 0 then none else _) = (if al = 0 then none else _)
        by_cases hal : al = 0
        · simp [hal]
        · simp only [hal, if_false]
          exact ih _ (fun x hx => H x (by simp [hx]))

lemma packed_size_loop_congr {s1 s2 : Name → Option Nat} :
    ∀ (ms : TypeList) (sum : Nat), (∀ m ∈ ms, s1 m = s2 m) →
      packed_size_loop s1 sum ms = packed_size_loop s2 sum ms := by
  intro ms
  induction ms with
  | nil => intro sum _; rfl
  | cons m rest ih =>
    intro sum H
    show (s1 m).bind _ = (s2 m).bind _
    rw [H m (by simp)]
    cases s2 m with
    | none => rfl
    | some sz => exact ih _ (fun x hx => H x (by simp [hx]))

lemma union_size_loop_congr {s1 s2 : Name → Option Nat} :
    ∀ (vs : TypeList) (maxi : Nat), (∀ m ∈ vs, s1 m = s2 m) →
      union_size_loop s1 maxi vs = union_size_loop s2 maxi vs := by
  intro vs
  induction vs with
  | nil => intro maxi _; rfl
  | cons v rest ih =>
    intro maxi H
    show (s1 v).bind _ = (s2 v).bind _
    rw [H v (by simp)]
    cases s2 v with
    | none => rfl
    | some sz => exact ih _ (fun x hx => H x (by simp [hx]))

lemma union_align_loop_congr {a1 a2 : Name → Option Nat} :
    ∀ (vs : TypeList), (∀ m ∈ vs, a1 m = a2 m) →
      union_align_loop a1 vs = union_align_loop a2 vs := by
  intro vs
  induction vs with
  | nil => intro _; rfl
  | cons v0 rest ih =>
    intro H
    cases rest with
    | nil => rfl
    | cons v1 rest2 =>
      show (a1 v0).bind _ = (a2 v0).bind _
      rw [H v0 (by simp)]
      cases a2 v0 with
      | none => rfl
      | some x0 =>
        show (a1 v1).bind _ = (a2 v1).bind _
        rw [H v1 (by simp)]
        cases a2 v1 with
        | none => rfl
        | some x1 =>
          show (utils.lcm x0 x1).bind _ = (utils.lcm x0 x1).bind _
          cases utils.lcm x0 x1 with
          | none => rfl
          | some x =>
            show (match rest2 with
              | [] => some x
              | _ :: _ => union_align_loop a1 (v1 :: rest2)) = _
            cases rest2 with
            | nil => rfl
            | cons v2 rest3 =>
              exact ih (fun m hm => H m (by simp [List.mem_cons] at hm ⊢; tauto))

lemma optimal_layout_loop_congr {c1 c2 : TypeList → Option Nat} :
    ∀ (perms : List TypeList) (best : TypeList × Nat),
      (∀ p ∈ perms, c1 p = c2 p) →
      optimal_layout_loop c1 perms best = optimal_layout_loop c2 perms best := by
  intro perms
  induction perms with
  | nil => intro best _; rfl
  | cons p rest ih =>
    intro best H
    show (c1 p).bind _ = (c2 p).bind _
    rw [H p (by simp)]
    cases c2 p with
    | none => rfl
    | some c => exact ih _ (fun x hx => H x (by simp [hx]))

lemma get_optimal_layout_congr {typesA typesB : TypeTable}
    {evA evB : SizeAlign} {ms : TypeList}
    (H : ∀ m ∈ ms, member_size typesA evA m = member_size typesB evB m ∧
      member_align typesA evA m = member_align typesB evB m) :
    get_optimal_layout typesA evA ms = get_optimal_layout typesB evB ms := by
  unfold get_optimal_layout
  cases hp : members_permutations ms with
  | none => rfl
  | some perms =>
    have h1 : ∀ p ∈ perms,
        layout_loop (member_size typesA evA) (member_align typesA evA) 0 p =
        layout_loop (member_size typesB evB) (member_align typesB evB) 0 p := by
      intro p hpp
      exact layout_loop_congr p 0
        (fun m hm => H m (members_permutations_mem hp p hpp m hm))
    exact optimal_layout_loop_congr perms _ h1

lemma optimal_layout_loop_layout {cost : TypeList → Option Nat} :
    ∀ (perms : List TypeList) (best out : TypeList × Nat),
      optimal_layout_loop cost perms best = some out →
      out = best ∨ (out.1 ∈ perms ∧ cost out.1 = some out.2) := by
  intro perms
  induction perms with
  | nil =>
    intro best out h
    left
    have h2 : some best = some out := h
    exact (Option.some.inj h2).symm
  | cons p rest ih =>
    intro best out h
    cases hc : cost p with
    | none =>
      exfalso
      unfold optimal_layout_loop at h
      rw [hc] at h
      cases h
    | some c =>
      unfold optimal_layout_loop at h
      rw [hc] at h
      have h2 : optimal_layout_loop cost rest (if c < best.2 then (p, c) else best) =
          some out := h
      rcases ih _ out h2 with hbest | hmem
      · by_cases hlt : c < best.2
        · right
          rw [hbest]
          simp only [hlt, if_true]
          exact ⟨by simp, by simpa using hc⟩
        · left
          rw [hbest]
          simp [hlt]
      · right
        exact ⟨List.mem_cons_of_mem p hmem.1, hmem.2⟩

lemma get_optimal_layout_layout_mem {types : TypeTable} {ev : SizeAlign}
    {ms lay : TypeList} {sz : Nat}
    (h : get_optimal_layout types ev ms = some (lay, sz)) :
    lay = [] ∨ ∀ m ∈ lay, m ∈ ms := by
  unfold get_optimal_layout at h
  cases hp : members_permutations ms with
  | none => rw [hp] at h; cases h
  | some perms =>
    rw [hp] at h
    have h2 : optimal_layout_loop
        (layout_loop (member_size types ev) (member_align types ev) 0)
        perms ([], utils.USIZE_MAX) = some (lay, sz) := h
    rcases optimal_layout_loop_layout perms _ _ h2 with hbest | hmem
    · left
      have : lay = ([] : TypeList) := by
        have := congrArg Prod.fst hbest
        simpa using this
      exact this
    · right
      intro m hm
      exact members_permutations_mem hp lay hmem.1 m hm

lemma step_congr {typesA typesB : TypeTable} {prevA prevB : SizeAlign}
    (mode : Mode) (t : Ty)
    (H : ∀ m ∈ refNames t,
      member_size typesA prevA m = member_size typesB prevB m ∧
      member_align typesA prevA m = member_align typesB prevB m) :
    (evalStep typesA mode prevA).size t = (evalStep typesB mode prevB).size t ∧
    (evalStep typesA mode prevA).align t = (evalStep typesB mode prevB).align t := by
  cases t with
  | atomic a => exact ⟨rfl, rfl⟩
  | union u =>
    constructor
    · exact union_size_loop_congr u.variants 0 (fun m hm => (H m hm).1)
    · exact union_align_loop_congr u.variants (fun m hm => (H m hm).2)
  | struct s =>
    have hopt : get_optimal_layout typesA prevA s.members =
        get_optimal_layout typesB prevB s.members :=
      get_optimal_layout_congr H
    constructor
    · show struct_size typesA prevA mode s.members =
        struct_size typesB prevB mode s.members
      cases mode with
      | unpacked => exact layout_loop_congr s.members 0 H
      | packed => exact packed_size_loop_congr s.members 0 (fun m hm => (H m hm).1)
      | optimized =>
        show optimized_size typesA prevA s.members =
          optimized_size typesB prevB s.members
        unfold optimized_size
        rw [hopt]
    · show struct_align typesA prevA mode s.members =
        struct_align typesB prevB mode s.members
      cases mode with
      | unpacked =>
        cases hms : s.members with
        | nil => rfl
        | cons m rest => exact (H m (by simp [refNames, hms])).2
      | packed =>
        cases hms : s.members with
        | nil => rfl
        | cons m rest => exact (H m (by simp [refNames, hms])).2
      | optimized =>
        show optimized_align typesA prevA s.members =
          optimized_align typesB prevB s.members
        unfold optimized_align
        rw [hopt]
        cases hres : get_optimal_layout typesB prevB s.members with
        | none => rfl
        | some p =>
          obtain ⟨lay, sz⟩ := p
          cases hlay : lay with
          | nil => rfl
          | cons m0 rest =>
            show member_align typesA prevA m0 = member_align typesB prevB m0
            rcases get_optimal_layout_layout_mem hres with hnil | hmem
            · rw [hnil] at hlay
              exact absurd hlay (by simp)
            · exact (H m0 (hmem m0 (by rw [hlay]; simp))).2

lemma eval_frame {types types' : TypeTable} (mode : Mode)
    (hwf : WellFormed types)
    (hagree : ∀ k, containsKey types k = true →
      TypeManager.get types' k = TypeManager.get types k) :
    ∀ (fuel : Nat) (t : Ty), (∀ r ∈ refNames t, containsKey types r = true) →
      (evalAt types' mode fuel).size t = (evalAt types mode fuel).size t ∧
      (evalAt types' mode fuel).align t = (evalAt types mode fuel).align t := by
  intro fuel
  induction fuel with
  | zero => intro t _; exact ⟨rfl, rfl⟩
  | succ fuel ih =>
    intro t hrefs
    apply step_congr
    intro m hm
    have hck : containsKey types m = true := hrefs m hm
    have hget : TypeManager.get types' m = TypeManager.get types m := hagree m hck
    obtain ⟨tm, htm⟩ : ∃ tm, TypeManager.get types m = some tm :=
      Option.isSome_iff_exists.mp hck
    have hmem : (m, tm) ∈ types := lookup_mem htm
    have hrefs_tm : ∀ r ∈ refNames tm, containsKey types r = true :=
      fun r hr => hwf (m, tm) hmem r hr
    obtain ⟨hsz, hal⟩ := ih tm hrefs_tm
    constructor
    · unfold member_size
      rw [hget, htm]
      exact hsz
    · unfold member_align
      rw [hget, htm]
      exact hal

lemma eval_stable {types : TypeTable} (h : Reachable types) :
    ∀ p ∈ types, ∀ (mode : Mode) (f g : Nat), types.length ≤ f →
      types.length ≤ g →
      (evalAt types mode f).size p.2 = (evalAt types mode g).size p.2 ∧
      (evalAt types mode f).align p.2 = (evalAt types mode g).align p.2 := by
  induction h with
  | nil => intro p hp; simp at hp
  | step hr hadd ih =>
    obtain ⟨hchk, rfl⟩ := add_ok_elim hadd
    obtain ⟨hfresh, hrefs⟩ := check_ok_elim hchk
    rename_i types name t
    have hwf : WellFormed types := wellformed_of_reachable hr
    have hagree : ∀ k, containsKey types k = true →
        TypeManager.get (types ++ [(name, t)]) k = TypeManager.get types k :=
      fun k hk => lookup_append_left hk
    intro p hp mode f g hf hg
    have hflen : types.length + 1 ≤ f := by simpa using hf
    have hglen : types.length + 1 ≤ g := by simpa using hg
    rcases List.mem_append.1 hp with hold | hnew
    · have hrefs_p : ∀ r ∈ refNames p.2, containsKey types r = true :=
        hwf p hold
      have h1 := eval_frame mode hwf hagree f p.2 hrefs_p
      have h2 := eval_frame mode hwf hagree g p.2 hrefs_p
      have h3 := ih p hold mode f g (by omega) (by omega)
      exact ⟨by rw [h1.1, h3.1, ← h2.1], by rw [h1.2, h3.2, ← h2.2]⟩
    · have hp2 : p = (name, t) := List.mem_singleton.1 hnew
      subst hp2
      obtain ⟨f', rfl⟩ : ∃ f', f = f' + 1 := ⟨f - 1, by omega⟩
      obtain ⟨g', rfl⟩ : ∃ g', g = g' + 1 := ⟨g - 1, by omega⟩
      apply step_congr
      intro m hm
      have hck : containsKey types m = true := hrefs m hm
      have hget : TypeManager.get (types ++ [(name, t)]) m =
          TypeManager.get types m := hagree m hck
      obtain ⟨tm, htm⟩ : ∃ tm, TypeManager.get types m = some tm :=
        Option.isSome_iff_exists.mp hck
      have hmemtm : (m, tm) ∈ types := lookup_mem htm
      have hrefstm : ∀ r ∈ refNames tm, containsKey types r = true :=
        fun r hr => hwf (m, tm) hmemtm r hr
      have e1f := eval_frame mode hwf hagree f' tm hrefstm
      have e1g := eval_frame mode hwf hagree g' tm hrefstm
      have e3 := ih (m, tm) hmemtm mode f' g' (by omega) (by omega)
      constructor
      · unfold member_size
        rw [hget, htm]
        exact e1f.1.trans (e3.1.trans e1g.1.symm)
      · unfold member_align
        rw [hget, htm]
        exact e1f.2.trans (e3.2.trans e1g.2.symm)

lemma no_self_reference {types : TypeTable} (h : Reachable types) :
    ∀ p ∈ types, p.1 ∉ refNames p.2 := by
  induction h with
  | nil => intro p hp; simp at hp
  | step hr hadd ih =>
    obtain ⟨hchk, rfl⟩ := add_ok_elim hadd
    obtain ⟨hfresh, hrefs⟩ := check_ok_elim hchk
    intro p hp
    rcases List.mem_append.1 hp with hold | hnew
    · exact ih p hold
    · have hp2 := List.mem_singleton.1 hnew
      subst hp2
      intro hself
      rw [hrefs _ hself] at hfresh
      cases hfresh

/-- C7: in every reachable registry no stored type names itself among its
references, and the recursion of every size and alignment computation through
member names is well-founded: with the registry's size as fuel the
computation has bottomed out, so giving the recursion any larger budget
returns the identical result, in all three packing modes. -/
theorem c7_layout_recursion_terminates {types : TypeTable}
    (h : Reachable types) :
    (∀ p ∈ types, p.1 ∉ refNames p.2) ∧
    (∀ p ∈ types, ∀ (mode : Mode) (f g : Nat), types.length ≤ f →
      types.length ≤ g →
      type_size types mode f p.2 = type_size types mode g p.2 ∧
      type_align types mode f p.2 = type_align types mode g p.2) :=
  ⟨no_self_reference h, fun p hp mode f g hf hg => eval_stable h p hp mode f g hf hg⟩

/-- C7 witness: in the reachable registry mgrC10 the struct "bad" gets the
same (defined) optimized size at fuel 6 and at fuel 20. -/
theorem c7_witness :
    (("bad", Ty.struct ⟨["u", "u"]⟩) ∈ mgrC10) ∧
    type_size mgrC10 .optimized 6 (Ty.struct ⟨["u", "u"]⟩) =
      type_size mgrC10 .optimized 20 (Ty.struct ⟨["u", "u"]⟩) ∧
    type_size mgrC10 .optimized 6 (Ty.struct ⟨["u", "u"]⟩) = some 25 := by
  have hmem : ("bad", Ty.struct ⟨["u", "u"]⟩) ∈ mgrC10 := by decide
  have h := (c7_layout_recursion_terminates reachable_mgrC10).2
    ("bad", Ty.struct ⟨["u", "u"]⟩) hmem .optimized 6 20 (by decide) (by decide)
  exact ⟨hmem, h.1, by decide⟩


/-- C10: the claim says every registered struct satisfies
packed ≤ optimized ≤ unpacked, so the padding subtractions in the report
cannot underflow.  The code violates the chain at both ends.  In the
reachable registry mgrC10 the struct "bad" = [u, u] has unpacked size 20 but
optimized size 25 (the permutation search re-evaluates members in optimized
mode, raising the nested union's alignment), so optimized ≤ unpacked fails
and `unpacked - optimized` underflows.  In the reachable registry mgrWrap the
struct "s" = [a, b] (a of size 2^64 - 2 and alignment 1, b of size 1 and
alignment 4) has packed size 2^64 - 1, but the unpacked and optimized
position accumulators wrap past 2^64 and report size 1, so packed ≤ unpacked
and packed ≤ optimized fail and `unpacked - packed` underflows. -/
theorem c10_size_chain_violations :
    (Reachable mgrC10 ∧
     TypeManager.get mgrC10 "bad" = some (.struct ⟨["u", "u"]⟩) ∧
     type_size mgrC10 .unpacked 6 (.struct ⟨["u", "u"]⟩) = some 20 ∧
     type_size mgrC10 .optimized 6 (.struct ⟨["u", "u"]⟩) = some 25 ∧
     ¬ (25 ≤ 20)) ∧
    (Reachable mgrWrap ∧
     TypeManager.get mgrWrap "s" = some (.struct ⟨["a", "b"]⟩) ∧
     type_size mgrWrap .packed 2 (.struct ⟨["a", "b"]⟩) =
       some utils.USIZE_MAX ∧
     type_size mgrWrap .unpacked 2 (.struct ⟨["a", "b"]⟩) = some 1 ∧
     type_size mgrWrap .optimized 2 (.struct ⟨["a", "b"]⟩) = some 1 ∧
     ¬ (utils.USIZE_MAX ≤ 1)) :=
  ⟨⟨reachable_mgrC10, rfl, by decide, by decide, by decide⟩,
   ⟨reachable_mgrWrap, rfl, by decide, by decide, by decide, by decide⟩⟩
